import Mathlib

/-!
Verification of the SfM bundle-adjustment core (`src/sfm.hpp`).

Shallow embedding conventions:
* C++ `double` is modelled by `ℝ`; `uint` (32-bit unsigned) arithmetic is
  modelled on `ℕ` with explicit `% 2 ^ 32` where overflow matters.
* `cv::Point2d` / `cv::Point3d` become the structures `Point2` / `Point3`.
* `cv::Vec<double, 11>` (`SFM::Vec11d`) becomes `Vec11d := Fin 11 → ℝ`.
* The `std::unordered_map<uint, uint>` visibility graph is modelled as a
  list of (key, point-index) pairs; the unspecified iteration order of the
  map corresponds to permutations of that list.
* In-place mutation of `Xs` in `markNoisyPoints` becomes explicit state
  passing: the function returns the updated point list with the count.
-/

namespace SFM

/-- 2D point over the reals (models `cv::Point2d`). -/
@[ext]
structure Point2 where
  x : ℝ
  y : ℝ

/-- 3D point over the reals (models `cv::Point3d`). -/
@[ext]
structure Point3 where
  x : ℝ
  y : ℝ
  z : ℝ

/-- The in-place update `X.z *= -1` performed by `SFM::markNoisyPoints`. -/
def flipZ (X : Point3) : Point3 := ⟨X.x, X.y, -X.z⟩

/-- Relation between a point's value before (`a`) and after (`b`) a
`markNoisyPoints` call: either unchanged, or it was valid (non-negative
third coordinate) and exactly its third coordinate's sign was flipped. -/
def MarkedFrom (a b : Point3) : Prop :=
  b = a ∨ (0 ≤ a.z ∧ b = flipZ a)

/-- Camera parameter vector (models `SFM::Vec11d = cv::Vec<double, 11>`):
indices 0-2 rotation (axis-angle), 3-5 translation, 6 focal length,
7-8 principal point, 9-10 radial distortion. -/
def Vec11d : Type := Fin 11 → ℝ

/-- Zero camera vector, used as the out-of-range default for list reads. -/
def view0 : Vec11d := fun _ => 0

/-- A camera with unit `z`-translation and all other parameters zero
(used to instantiate theorems at concrete inputs). -/
noncomputable def viewZ1 : Vec11d := fun i => if i = 5 then 1 else 0

/-- A camera with principal point `(9, 8)` and all other parameters zero
(used to instantiate theorems at concrete inputs). -/
noncomputable def viewPP : Vec11d := fun i => if i = 7 then 9 else if i = 8 then 8 else 0

/-- `SFM::genKey`: `return ((img_idx << 16) + pt_idx);` on `uint`.
The 32-bit left shift and addition wrap modulo `2 ^ 32`. -/
def genKey (img_idx pt_idx : ℕ) : ℕ := (img_idx * 2 ^ 16 + pt_idx) % 2 ^ 32

/-- `SFM::getImIdx`: `return ((key >> 16) & 0xFFFF);`. -/
def getImIdx (key : ℕ) : ℕ := key / 2 ^ 16 % 2 ^ 16

/-- `SFM::getPtIdx`: `return (key & 0xFFFF);`. -/
def getPtIdx (key : ℕ) : ℕ := key % 2 ^ 16

/-- Axis-angle (Rodrigues) rotation of a point. This models both
`ceres::AngleAxisRotatePoint(camera, point, X)` in the residual functors and
`cv::Rodrigues(rvec, R); X_p = R * X` in `SFM::markNoisyPoints`: both compute
`R(r) p = cos θ · p + sin θ · (u × p) + (1 - cos θ) (u · p) u` with
`θ = ‖r‖`, `u = r / θ`, and the identity rotation at `r = 0`. -/
noncomputable def axisAngleRotate (r p : Point3) : Point3 :=
  let theta := Real.sqrt (r.x * r.x + r.y * r.y + r.z * r.z)
  if theta = 0 then p
  else
    let ux := r.x / theta
    let uy := r.y / theta
    let uz := r.z / theta
    let c := Real.cos theta
    let s := Real.sin theta
    let d := ux * p.x + uy * p.y + uz * p.z
    ⟨c * p.x + s * (uy * p.z - uz * p.y) + (1 - c) * d * ux,
     c * p.y + s * (uz * p.x - ux * p.z) + (1 - c) * d * uy,
     c * p.z + s * (ux * p.y - uy * p.x) + (1 - c) * d * uz⟩

/-- Full 11-DOF projection: the predicted pixel `(x_p, y_p)` computed in
`ReprojectionError11DOF::operator()` (rotation, translation, perspective
divide, second-order radial distortion, focal scaling, principal-point
offset). `SFM::markNoisyPoints` recomputes exactly the same quantity. -/
noncomputable def projectFull (camera : Vec11d) (point : Point3) : Point2 :=
  let X := axisAngleRotate ⟨camera 0, camera 1, camera 2⟩ point
  let X' : Point3 := ⟨X.x + camera 3, X.y + camera 4, X.z + camera 5⟩
  let f := camera 6
  let cx := camera 7
  let cy := camera 8
  let k1 := camera 9
  let k2 := camera 10
  let x_n := X'.x / X'.z
  let y_n := X'.y / X'.z
  let r2 := x_n * x_n + y_n * y_n
  let radial_distort := 1 + r2 * (k1 + k2 * r2)
  ⟨f * radial_distort * x_n + cx, f * radial_distort * y_n + cy⟩

/-- Residual of `ReprojectionError11DOF`: observed pixel minus predicted
pixel (`residuals[0..1] = x - x_p`). -/
noncomputable def reprojectionError11DOF (obs : Point2) (camera : Vec11d)
    (point : Point3) : Point2 :=
  ⟨obs.x - (projectFull camera point).x, obs.y - (projectFull camera point).y⟩

/-- 7-DOF projection: the predicted pixel computed in
`ReprojectionError7DOF::operator()` — rotation, translation, perspective
divide and focal scaling from the camera block (indices 0-6), no distortion,
principal point `c` supplied externally (a constructor-time constant of the
functor, not part of the parameter block). -/
noncomputable def project7DOF (camera : Vec11d) (c : Point2) (point : Point3) : Point2 :=
  let X := axisAngleRotate ⟨camera 0, camera 1, camera 2⟩ point
  let X' : Point3 := ⟨X.x + camera 3, X.y + camera 4, X.z + camera 5⟩
  let f := camera 6
  ⟨f * X'.x / X'.z + c.x, f * X'.y / X'.z + c.y⟩

/-- Residual of `ReprojectionError7DOF`: observed pixel minus predicted
pixel. -/
noncomputable def reprojectionError7DOF (obs c : Point2) (camera : Vec11d)
    (point : Point3) : Point2 :=
  ⟨obs.x - (project7DOF camera c point).x, obs.y - (project7DOF camera c point).y⟩

/-- A residual block registered by `SFM::addCostFunc11DOF`: the observation
captured by value, the camera and point parameter blocks identified by the
index they are taken at (`&views[img_idx]`, `&Xs[visible->second]`), and the
optional Cauchy loss width. -/
structure Residual11 where
  obs : Point2
  viewIdx : ℕ
  pointIdx : ℕ
  loss : Option ℝ

/-- The residual block built by one iteration of `SFM::addCostFunc11DOF`. -/
noncomputable def mkResidual11 (xs : List (List Point2)) (loss_width : ℝ)
    (e : ℕ × ℕ) : Residual11 :=
  let img_idx := getImIdx e.1
  let pt_idx := getPtIdx e.1
  { obs := (xs.getD img_idx []).getD pt_idx ⟨0, 0⟩
    viewIdx := img_idx
    pointIdx := e.2
    loss := if loss_width > 0 then some loss_width else none }

/-- `SFM::addCostFunc11DOF`: registers one `ReprojectionError11DOF` residual
block per visibility entry (the `Xs` and `views` containers enter only
through the indices recorded in the block). -/
noncomputable def addCostFunc11DOF (xs : List (List Point2))
    (visibility : List (ℕ × ℕ)) (loss_width : ℝ) : List Residual11 :=
  visibility.map (mkResidual11 xs loss_width)

/-- A residual block registered by `SFM::addCostFunc7DOF`: like
`Residual11`, plus the principal point copied out of
`views[img_idx][7..8]` when the functor is constructed
(`cv::Point2d(view[7], view[8])`). -/
structure Residual7 where
  obs : Point2
  c : Point2
  viewIdx : ℕ
  pointIdx : ℕ
  loss : Option ℝ

/-- The residual block built by one iteration of `SFM::addCostFunc7DOF`. -/
noncomputable def mkResidual7 (xs : List (List Point2)) (views : List Vec11d)
    (loss_width : ℝ) (e : ℕ × ℕ) : Residual7 :=
  let img_idx := getImIdx e.1
  let pt_idx := getPtIdx e.1
  let view := views.getD img_idx view0
  { obs := (xs.getD img_idx []).getD pt_idx ⟨0, 0⟩
    c := ⟨view 7, view 8⟩
    viewIdx := img_idx
    pointIdx := e.2
    loss := if loss_width > 0 then some loss_width else none }

/-- `SFM::addCostFunc7DOF`: registers one `ReprojectionError7DOF` residual
block per visibility entry, snapshotting the principal point from the
camera's current parameters. -/
noncomputable def addCostFunc7DOF (xs : List (List Point2))
    (views : List Vec11d) (visibility : List (ℕ × ℕ)) (loss_width : ℝ) :
    List Residual7 :=
  visibility.map (mkResidual7 xs views loss_width)

/-- Squared reprojection error computed for one visibility entry inside
`SFM::markNoisyPoints` (`d.x * d.x + d.y * d.y` for `d = x - x_p`), as a
function of the key and the current point value. -/
noncomputable def errSq (xs : List (List Point2)) (views : List Vec11d)
    (key : ℕ) (X : Point3) : ℝ :=
  let img_idx := getImIdx key
  let pt_idx := getPtIdx key
  let x := (xs.getD img_idx []).getD pt_idx ⟨0, 0⟩
  let view := views.getD img_idx view0
  let x_p := projectFull view X
  let d : Point2 := ⟨x.x - x_p.x, x.y - x_p.y⟩
  d.x * d.x + d.y * d.y

/-- One iteration of the `SFM::markNoisyPoints` loop: skip the entry when
the point's third coordinate is negative, otherwise negate it and bump the
count when the squared reprojection error exceeds the threshold. The state
is the point list (mutated in place in the source) with `n_mark`. -/
noncomputable def markStep (xs : List (List Point2)) (views : List Vec11d)
    (reproj_error2 : ℝ) (s : List Point3 × ℕ) (e : ℕ × ℕ) :
    List Point3 × ℕ :=
  let X := s.1.getD e.2 ⟨0, 0, 0⟩
  if X.z < 0 then s
  else if errSq xs views e.1 X > reproj_error2 then
    (s.1.set e.2 (flipZ X), s.2 + 1)
  else s

/-- `SFM::markNoisyPoints`: returns `-1` when the threshold is non-positive;
otherwise folds `markStep` over the visibility entries and returns the
updated point list with the number of newly marked points. -/
noncomputable def markNoisyPoints (Xs : List Point3) (xs : List (List Point2))
    (views : List Vec11d) (visibility : List (ℕ × ℕ)) (reproj_error2 : ℝ) :
    List Point3 × ℤ :=
  if reproj_error2 ≤ 0 then (Xs, -1)
  else
    let r := visibility.foldl (markStep xs views reproj_error2) (Xs, 0)
    (r.1, (r.2 : ℤ))

end SFM

namespace SFM

/-- Claim C1: round-trip of the composite visibility key: for image and point indices
that each fit in 16 bits, `getImIdx (genKey i p) = i` and
`getPtIdx (genKey i p) = p`. -/
theorem genKey_roundtrip (i p : ℕ) (hi : i < 2 ^ 16) (hp : p < 2 ^ 16) :
    getImIdx (genKey i p) = i ∧ getPtIdx (genKey i p) = p := by
  unfold getImIdx getPtIdx genKey
  constructor <;> omega

/-- Concrete instance of `genKey_roundtrip` at image index 3, point index 5. -/
theorem genKey_roundtrip_witness :
    getImIdx (genKey 3 5) = 3 ∧ getPtIdx (genKey 3 5) = 5 :=
  genKey_roundtrip 3 5 (by norm_num) (by norm_num)

/-- Claim C9: `genKey` combines its fields by addition modulo `2 ^ 32`; when the point
index does not fit in 16 bits its excess carries into the image field, and
distinct pairs such as `(i, 2 ^ 16)` and `(i + 1, 0)` collide. -/
theorem genKey_carry (i p : ℕ) (hp : 2 ^ 16 ≤ p) :
    genKey i p = (i * 2 ^ 16 + p) % 2 ^ 32 ∧
    getPtIdx (genKey i p) = p % 2 ^ 16 ∧
    getImIdx (genKey i p) = (i + p / 2 ^ 16) % 2 ^ 16 ∧
    genKey i (2 ^ 16) = genKey (i + 1) 0 := by
  unfold getImIdx getPtIdx genKey
  refine ⟨rfl, by omega, by omega, by omega⟩

/-- Concrete instance of `genKey_carry`: the pairs `(1, 65536)` and `(2, 0)`
encode to the same key, whose decoded image field is 2 and point field 0. -/
theorem genKey_carry_witness :
    genKey 1 65536 = (1 * 2 ^ 16 + 65536) % 2 ^ 32 ∧
    getPtIdx (genKey 1 65536) = 65536 % 2 ^ 16 ∧
    getImIdx (genKey 1 65536) = (1 + 65536 / 2 ^ 16) % 2 ^ 16 ∧
    genKey 1 (2 ^ 16) = genKey (1 + 1) 0 :=
  genKey_carry 1 65536 (by norm_num)

/-! Helper lemmas about `List.getD` and `List.set`. -/

theorem getD_set_lt {α : Type} {l : List α} {j : ℕ} (h : j < l.length)
    (v d : α) : (l.set j v).getD j d = v := by
  rw [List.getD_eq_getElem?_getD, List.getElem?_set_self h, Option.getD_some]

theorem getD_set_of_ne {α : Type} {l : List α} {i j : ℕ} (h : i ≠ j)
    (v d : α) : (l.set i v).getD j d = l.getD j d := by
  rw [List.getD_eq_getElem?_getD, List.getElem?_set_ne h,
    ← List.getD_eq_getElem?_getD]

theorem getD_of_le {α : Type} {l : List α} {j : ℕ} (h : l.length ≤ j)
    (d : α) : l.getD j d = d := by
  rw [List.getD_eq_getElem?_getD, List.getElem?_eq_none h, Option.getD_none]

theorem set_getD_self {α : Type} (l : List α) (n : ℕ) (d : α) :
    l.set n (l.getD n d) = l := by
  rcases lt_or_le n l.length with h | h
  · apply List.ext_getElem?
    intro m
    rw [List.getElem?_set]
    split
    · next heq =>
      subst heq
      simp [List.getD_eq_getElem?_getD, List.getElem?_eq_getElem h, h]
    · rfl
  · exact List.set_eq_of_length_le h

/-! Unfolding lemmas for one iteration of the `markNoisyPoints` loop. -/

theorem markStep_skip (xs : List (List Point2)) (views : List Vec11d)
    (T : ℝ) (s : List Point3 × ℕ) (e : ℕ × ℕ)
    (hz : (s.1.getD e.2 ⟨0, 0, 0⟩).z < 0) : markStep xs views T s e = s := by
  simp only [markStep, if_pos hz]

theorem markStep_flip (xs : List (List Point2)) (views : List Vec11d)
    (T : ℝ) (s : List Point3 × ℕ) (e : ℕ × ℕ)
    (hz : ¬ (s.1.getD e.2 ⟨0, 0, 0⟩).z < 0)
    (he : errSq xs views e.1 (s.1.getD e.2 ⟨0, 0, 0⟩) > T) :
    markStep xs views T s e =
      (s.1.set e.2 (flipZ (s.1.getD e.2 ⟨0, 0, 0⟩)), s.2 + 1) := by
  simp only [markStep, if_neg hz, if_pos he]

theorem markStep_keep (xs : List (List Point2)) (views : List Vec11d)
    (T : ℝ) (s : List Point3 × ℕ) (e : ℕ × ℕ)
    (hz : ¬ (s.1.getD e.2 ⟨0, 0, 0⟩).z < 0)
    (he : ¬ errSq xs views e.1 (s.1.getD e.2 ⟨0, 0, 0⟩) > T) :
    markStep xs views T s e = s := by
  simp only [markStep, if_neg hz, if_neg he]

/-- Claim C3: `markNoisyPoints` called with a non-positive threshold returns
the sentinel `-1` and leaves every point (hence every validity flag)
unchanged; with a positive threshold it returns a non-negative count. -/
theorem markNoisyPoints_sentinel (Xs : List Point3) (xs : List (List Point2))
    (views : List Vec11d) (visibility : List (ℕ × ℕ)) (T : ℝ) :
    (T ≤ 0 → markNoisyPoints Xs xs views visibility T = (Xs, -1)) ∧
    (0 < T → 0 ≤ (markNoisyPoints Xs xs views visibility T).2) := by
  constructor
  · intro h
    simp only [markNoisyPoints, if_pos h]
  · intro h
    simp only [markNoisyPoints, if_neg (not_le.2 h)]
    exact Int.natCast_nonneg _

/-- Concrete instance of `markNoisyPoints_sentinel`: threshold `-2` yields
the sentinel with the points untouched, threshold `4` a non-negative
count. -/
theorem markNoisyPoints_sentinel_witness :
    markNoisyPoints [⟨1, 2, 3⟩] [[⟨5, 6⟩]] [view0] [(0, 0)] (-2) =
      ([⟨1, 2, 3⟩], -1) ∧
    0 ≤ (markNoisyPoints [⟨1, 2, 3⟩] [[⟨5, 6⟩]] [view0] [(0, 0)] 4).2 :=
  ⟨(markNoisyPoints_sentinel _ _ _ _ _).1 (by norm_num),
   (markNoisyPoints_sentinel _ _ _ _ _).2 (by norm_num)⟩

/-- Claim C6: whenever the full 11-DOF projection model (axis-angle
rotation, translation, perspective divide, second-order radial distortion,
focal scaling, principal-point offset) exactly reproduces the observed
pixel, the `ReprojectionError11DOF` residual is `(0, 0)`. -/
theorem reprojectionError11DOF_zero (obs : Point2) (camera : Vec11d)
    (point : Point3) (h : projectFull camera point = obs) :
    reprojectionError11DOF obs camera point = ⟨0, 0⟩ := by
  simp [reprojectionError11DOF, h]

/-- Concrete instance of `reprojectionError11DOF_zero`: the all-zero camera
projects the point `(0, 0, 1)` exactly onto the observed pixel `(0, 0)`, and
the residual there is `(0, 0)`. -/
theorem reprojectionError11DOF_zero_witness :
    projectFull view0 ⟨0, 0, 1⟩ = ⟨0, 0⟩ ∧
    reprojectionError11DOF ⟨0, 0⟩ view0 ⟨0, 0, 1⟩ = ⟨0, 0⟩ := by
  have h : projectFull view0 ⟨0, 0, 1⟩ = (⟨0, 0⟩ : Point2) := by
    simp [projectFull, axisAngleRotate, view0]
  exact ⟨h, reprojectionError11DOF_zero _ _ _ h⟩

/-! The `MarkedFrom` relation tracks how `markNoisyPoints` may change one
point: flipping the sign of the third coordinate twice is the identity, the
relation is transitive, and every loop iteration respects it. -/

theorem flipZ_flipZ (a : Point3) : flipZ (flipZ a) = a := by
  simp [flipZ]

theorem markedFrom_trans {a b c : Point3} (h1 : MarkedFrom a b)
    (h2 : MarkedFrom b c) : MarkedFrom a c := by
  rcases h1 with rfl | ⟨ha, rfl⟩
  · exact h2
  · rcases h2 with rfl | ⟨hb, rfl⟩
    · exact Or.inr ⟨ha, rfl⟩
    · exact Or.inl (flipZ_flipZ a)

theorem markStep_markedFrom (xs : List (List Point2)) (views : List Vec11d)
    (T : ℝ) (s : List Point3 × ℕ) (e : ℕ × ℕ) (j : ℕ) (d : Point3) :
    MarkedFrom (s.1.getD j d) ((markStep xs views T s e).1.getD j d) := by
  by_cases hz : (s.1.getD e.2 ⟨0, 0, 0⟩).z < 0
  · rw [markStep_skip xs views T s e hz]
    exact Or.inl rfl
  · by_cases he : errSq xs views e.1 (s.1.getD e.2 ⟨0, 0, 0⟩) > T
    · rw [markStep_flip xs views T s e hz he]
      dsimp only
      by_cases hj : e.2 = j
      · subst hj
        rcases lt_or_le e.2 s.1.length with hlen | hlen
        · rw [getD_set_lt hlen]
          have hd : s.1.getD e.2 d = s.1.getD e.2 ⟨0, 0, 0⟩ := by
            rw [List.getD_eq_getElem?_getD, List.getD_eq_getElem?_getD,
              List.getElem?_eq_getElem hlen]
            rfl
          rw [hd]
          exact Or.inr ⟨not_lt.1 hz, rfl⟩
        · rw [List.set_eq_of_length_le hlen]
          exact Or.inl rfl
      · rw [getD_set_of_ne hj]
        exact Or.inl rfl
    · rw [markStep_keep xs views T s e hz he]
      exact Or.inl rfl

theorem foldl_markedFrom (xs : List (List Point2)) (views : List Vec11d)
    (T : ℝ) (l : List (ℕ × ℕ)) (s : List Point3 × ℕ) (j : ℕ) (d : Point3) :
    MarkedFrom (s.1.getD j d)
      ((l.foldl (markStep xs views T) s).1.getD j d) := by
  induction l generalizing s with
  | nil => exact Or.inl rfl
  | cons e l ih =>
      rw [List.foldl_cons]
      exact markedFrom_trans (markStep_markedFrom xs views T s e j d) (ih _)

theorem markNoisyPoints_markedFrom (Xs : List Point3)
    (xs : List (List Point2)) (views : List Vec11d) (vis : List (ℕ × ℕ))
    (T : ℝ) (j : ℕ) (d : Point3) :
    MarkedFrom (Xs.getD j d)
      ((markNoisyPoints Xs xs views vis T).1.getD j d) := by
  unfold markNoisyPoints
  split
  · exact Or.inl rfl
  · exact foldl_markedFrom xs views T vis (Xs, 0) j d

/-- Claim C8: toggling validity preserves the stored magnitude of the third
coordinate and leaves the other coordinates untouched: after a
`markNoisyPoints` call every point has the same `x`, `y` and `|z|` as
before, and negating its third coordinate again restores exactly the
original point when it was marked. -/
theorem markNoisyPoints_magnitude (Xs : List Point3)
    (xs : List (List Point2)) (views : List Vec11d) (vis : List (ℕ × ℕ))
    (T : ℝ) (j : ℕ) (d : Point3) :
    ((markNoisyPoints Xs xs views vis T).1.getD j d).x = (Xs.getD j d).x ∧
    ((markNoisyPoints Xs xs views vis T).1.getD j d).y = (Xs.getD j d).y ∧
    |((markNoisyPoints Xs xs views vis T).1.getD j d).z| = |(Xs.getD j d).z| ∧
    ((markNoisyPoints Xs xs views vis T).1.getD j d = Xs.getD j d ∨
      flipZ ((markNoisyPoints Xs xs views vis T).1.getD j d) = Xs.getD j d) := by
  rcases markNoisyPoints_markedFrom Xs xs views vis T j d with heq | ⟨hz, heq⟩ <;>
    rw [heq]
  · exact ⟨rfl, rfl, rfl, Or.inl rfl⟩
  · exact ⟨rfl, rfl, abs_neg _, Or.inr (flipZ_flipZ _)⟩

/-- Claim C4: `markNoisyPoints` implements a one-way state machine per
point: an iteration skips (leaves the state unchanged for) a point whose
third coordinate is negative, an invalid point is never flipped back by a
whole call, and the only possible change to a point is the valid-to-invalid
sign flip of its third coordinate. -/
theorem markNoisyPoints_one_way (Xs : List Point3) (xs : List (List Point2))
    (views : List Vec11d) (vis : List (ℕ × ℕ)) (T : ℝ) (j : ℕ) (d : Point3) :
    (∀ (s : List Point3 × ℕ) (e : ℕ × ℕ),
      (s.1.getD e.2 ⟨0, 0, 0⟩).z < 0 → markStep xs views T s e = s) ∧
    ((Xs.getD j d).z < 0 →
      (markNoisyPoints Xs xs views vis T).1.getD j d = Xs.getD j d) ∧
    ((markNoisyPoints Xs xs views vis T).1.getD j d = Xs.getD j d ∨
      (0 ≤ (Xs.getD j d).z ∧
        (markNoisyPoints Xs xs views vis T).1.getD j d =
          flipZ (Xs.getD j d))) := by
  have h := markNoisyPoints_markedFrom Xs xs views vis T j d
  refine ⟨fun s e hz => markStep_skip xs views T s e hz, ?_, h⟩
  intro hneg
  rcases h with heq | ⟨hz, _⟩
  · exact heq
  · exact absurd hz (not_le.2 hneg)

/-- Concrete instance of `markNoisyPoints_one_way`: a point already marked
invalid (third coordinate `-3`) is left untouched by a call. -/
theorem markNoisyPoints_one_way_witness :
    (markNoisyPoints [⟨1, 2, -3⟩] [[⟨5, 6⟩]] [view0] [(0, 0)] 4).1.getD 0
      ⟨0, 0, 0⟩ = ([⟨1, 2, -3⟩] : List Point3).getD 0 ⟨0, 0, 0⟩ :=
  (markNoisyPoints_one_way [⟨1, 2, -3⟩] [[⟨5, 6⟩]] [view0] [(0, 0)] 4 0
    ⟨0, 0, 0⟩).2.1 (by norm_num [List.getD_cons_zero])

/-- Claim C2: for a visible valid point whose squared reprojection error
under the full 11-DOF model exceeds the positive threshold, one call to
`markNoisyPoints` negates its third coordinate and returns a count of 1; a
second call on the same (now mutated) data returns 0, the now-invalid point
being skipped. -/
theorem markNoisyPoints_outlier (Xs : List Point3) (xs : List (List Point2))
    (views : List Vec11d) (T : ℝ) (e : ℕ × ℕ) (hlen : e.2 < Xs.length)
    (hz : 0 < (Xs.getD e.2 ⟨0, 0, 0⟩).z) (hT : 0 < T)
    (herr : errSq xs views e.1 (Xs.getD e.2 ⟨0, 0, 0⟩) > T) :
    markNoisyPoints Xs xs views [e] T =
      (Xs.set e.2 (flipZ (Xs.getD e.2 ⟨0, 0, 0⟩)), 1) ∧
    markNoisyPoints (markNoisyPoints Xs xs views [e] T).1 xs views [e] T =
      ((markNoisyPoints Xs xs views [e] T).1, 0) := by
  have hT' : ¬ T ≤ 0 := not_le.2 hT
  have h1 : markNoisyPoints Xs xs views [e] T =
      (Xs.set e.2 (flipZ (Xs.getD e.2 ⟨0, 0, 0⟩)), 1) := by
    unfold markNoisyPoints
    rw [if_neg hT']
    dsimp only
    rw [List.foldl_cons,
      markStep_flip xs views T (Xs, 0) e (not_lt.2 hz.le) herr,
      List.foldl_nil]
    simp
  refine ⟨h1, ?_⟩
  rw [h1]
  dsimp only
  have hsk : (((Xs.set e.2 (flipZ (Xs.getD e.2 ⟨0, 0, 0⟩)), (0 : ℕ)) :
      List Point3 × ℕ).1.getD e.2 ⟨0, 0, 0⟩).z < 0 := by
    dsimp only
    rw [getD_set_lt hlen]
    exact neg_lt_zero.2 hz
  unfold markNoisyPoints
  rw [if_neg hT']
  dsimp only
  rw [List.foldl_cons, markStep_skip xs views T _ e hsk, List.foldl_nil]
  simp

/-- Concrete instance of `markNoisyPoints_outlier`: a single point at
`(0, 0, 1)` observed at pixel `(3, 4)` under the all-zero camera has
squared error 25 > 4; the first call marks it and returns 1, the second
returns 0. -/
theorem markNoisyPoints_outlier_witness :
    markNoisyPoints [⟨0, 0, 1⟩] [[⟨3, 4⟩]] [view0] [(0, 0)] 4 =
      (([⟨0, 0, 1⟩] : List Point3).set 0
        (flipZ (([⟨0, 0, 1⟩] : List Point3).getD 0 ⟨0, 0, 0⟩)), 1) ∧
    markNoisyPoints
        (markNoisyPoints [⟨0, 0, 1⟩] [[⟨3, 4⟩]] [view0] [(0, 0)] 4).1
        [[⟨3, 4⟩]] [view0] [(0, 0)] 4 =
      ((markNoisyPoints [⟨0, 0, 1⟩] [[⟨3, 4⟩]] [view0] [(0, 0)] 4).1, 0) :=
  markNoisyPoints_outlier [⟨0, 0, 1⟩] [[⟨3, 4⟩]] [view0] 4 (0, 0)
    (by norm_num) (by norm_num [List.getD_cons_zero]) (by norm_num)
    (by norm_num [errSq, getImIdx, getPtIdx, projectFull, axisAngleRotate,
      view0, List.getD_cons_zero])

/-- Claim C10: the skip test is strictly `z < 0`, so a point with third
coordinate exactly 0 is treated as valid; an entry whose error exceeds the
positive threshold increments the count while the negation leaves the
coordinate 0, so the point is counted again by a further visibility entry
for it, and a repeated call on the same data returns the same count. -/
theorem markNoisyPoints_zero_z (Xs : List Point3) (xs : List (List Point2))
    (views : List Vec11d) (T : ℝ) (e e' : ℕ × ℕ) (hj : e'.2 = e.2)
    (hlen : e.2 < Xs.length) (hz : (Xs.getD e.2 ⟨0, 0, 0⟩).z = 0) (hT : 0 < T)
    (herr : errSq xs views e.1 (Xs.getD e.2 ⟨0, 0, 0⟩) > T)
    (herr' : errSq xs views e'.1 (Xs.getD e.2 ⟨0, 0, 0⟩) > T) :
    markNoisyPoints Xs xs views [e, e'] T = (Xs, 2) ∧
    markNoisyPoints (markNoisyPoints Xs xs views [e, e'] T).1 xs views
      [e, e'] T = (Xs, 2) := by
  have hT' : ¬ T ≤ 0 := not_le.2 hT
  have hznlt : ¬ (Xs.getD e.2 ⟨0, 0, 0⟩).z < 0 := by
    rw [hz]
    exact lt_irrefl 0
  have hflip : flipZ (Xs.getD e.2 ⟨0, 0, 0⟩) = Xs.getD e.2 ⟨0, 0, 0⟩ := by
    refine Point3.ext rfl rfl ?_
    show -(Xs.getD e.2 ⟨0, 0, 0⟩).z = (Xs.getD e.2 ⟨0, 0, 0⟩).z
    rw [hz, neg_zero]
  have hset : Xs.set e.2 (flipZ (Xs.getD e.2 ⟨0, 0, 0⟩)) = Xs := by
    rw [hflip]
    exact set_getD_self Xs e.2 ⟨0, 0, 0⟩
  have h1 : markNoisyPoints Xs xs views [e, e'] T = (Xs, 2) := by
    unfold markNoisyPoints
    rw [if_neg hT']
    dsimp only
    rw [List.foldl_cons, markStep_flip xs views T (Xs, 0) e hznlt herr]
    dsimp only
    rw [hset, List.foldl_cons]
    rw [markStep_flip xs views T (Xs, 1) e' (by rw [hj]; exact hznlt)
      (by rw [hj]; exact herr')]
    dsimp only
    rw [hj, hset, List.foldl_nil]
    simp
  refine ⟨h1, ?_⟩
  rw [h1]
  exact h1

/-- Concrete instance of `markNoisyPoints_zero_z`: a single point at the
origin (third coordinate 0) with two visibility entries, observed at pixel
`(3, 4)` under a camera with unit `z`-translation, is counted twice and
left unchanged; the repeated call again returns 2. -/
theorem markNoisyPoints_zero_z_witness :
    markNoisyPoints [⟨0, 0, 0⟩] [[⟨3, 4⟩, ⟨3, 4⟩]] [viewZ1] [(0, 0), (1, 0)]
      4 = ([⟨0, 0, 0⟩], 2) ∧
    markNoisyPoints
        (markNoisyPoints [⟨0, 0, 0⟩] [[⟨3, 4⟩, ⟨3, 4⟩]] [viewZ1]
          [(0, 0), (1, 0)] 4).1
        [[⟨3, 4⟩, ⟨3, 4⟩]] [viewZ1] [(0, 0), (1, 0)] 4 = ([⟨0, 0, 0⟩], 2) :=
  markNoisyPoints_zero_z [⟨0, 0, 0⟩] [[⟨3, 4⟩, ⟨3, 4⟩]] [viewZ1] 4 (0, 0)
    (1, 0) rfl (by norm_num) (by norm_num [List.getD_cons_zero]) (by norm_num)
    (by simp [errSq, getImIdx, getPtIdx, projectFull, axisAngleRotate,
      viewZ1, List.getD_cons_zero]
        norm_num)
    (by simp [errSq, getImIdx, getPtIdx, projectFull, axisAngleRotate,
      viewZ1, List.getD_cons_zero]
        norm_num)

/-- Claim C7: the 7-DOF residual applies no distortion and offsets by a
principal point snapshotted at residual-construction time: the block built
by `addCostFunc7DOF` stores exactly the principal point found in the
camera's parameter storage when it is built, and the predicted pixel is
unchanged by any later change to entries 7-10 (principal point and
distortion) of the live camera parameter block. -/
theorem addCostFunc7DOF_snapshot (xs : List (List Point2))
    (views : List Vec11d) (lw : ℝ) (vis : List (ℕ × ℕ)) (r : Residual7)
    (hr : r ∈ addCostFunc7DOF xs views vis lw) :
    r.c = ⟨(views.getD r.viewIdx view0) 7, (views.getD r.viewIdx view0) 8⟩ ∧
    ∀ (camera camera' : Vec11d) (X : Point3),
      (∀ i : Fin 11, (i : ℕ) < 7 → camera' i = camera i) →
      project7DOF camera' r.c X = project7DOF camera r.c X := by
  obtain ⟨e, he, rfl⟩ := List.mem_map.1 hr
  refine ⟨rfl, ?_⟩
  intro camera camera' X hagree
  have h0 := hagree 0 (by decide)
  have h1 := hagree 1 (by decide)
  have h2 := hagree 2 (by decide)
  have h3 := hagree 3 (by decide)
  have h4 := hagree 4 (by decide)
  have h5 := hagree 5 (by decide)
  have h6 := hagree 6 (by decide)
  simp only [project7DOF, h0, h1, h2, h3, h4, h5, h6]

/-- Concrete instance of `addCostFunc7DOF_snapshot`: a block built from a
camera with principal point `(9, 8)` stores that principal point, and
zeroing entries 7-10 of the camera block afterwards leaves the predicted
pixel unchanged. -/
theorem addCostFunc7DOF_snapshot_witness :
    (mkResidual7 [[⟨1, 2⟩]] [viewPP] 4 (0, 0)).c =
      ⟨(([viewPP] : List Vec11d).getD
          (mkResidual7 [[⟨1, 2⟩]] [viewPP] 4 (0, 0)).viewIdx view0) 7,
        (([viewPP] : List Vec11d).getD
          (mkResidual7 [[⟨1, 2⟩]] [viewPP] 4 (0, 0)).viewIdx view0) 8⟩ ∧
    project7DOF view0 (mkResidual7 [[⟨1, 2⟩]] [viewPP] 4 (0, 0)).c ⟨0, 0, 1⟩ =
      project7DOF viewPP (mkResidual7 [[⟨1, 2⟩]] [viewPP] 4 (0, 0)).c
        ⟨0, 0, 1⟩ := by
  have h := addCostFunc7DOF_snapshot [[⟨1, 2⟩]] [viewPP] 4 [(0, 0)]
    (mkResidual7 [[⟨1, 2⟩]] [viewPP] 4 (0, 0)) (by simp [addCostFunc7DOF])
  refine ⟨h.1, h.2 viewPP view0 ⟨0, 0, 1⟩ ?_⟩
  intro i hi
  fin_cases i <;> simp_all [viewPP, view0]

/-! Commutativity of the `markNoisyPoints` loop body: processing two
visibility entries in either order yields the same state, so the result of
the whole loop does not depend on the (unspecified) enumeration order of
the visibility map. -/

theorem flipZ_of_z_zero {a : Point3} (h : a.z = 0) : flipZ a = a := by
  refine Point3.ext rfl rfl ?_
  show -a.z = a.z
  rw [h, neg_zero]

theorem markStep_comm (xs : List (List Point2)) (views : List Vec11d)
    (T : ℝ) (s : List Point3 × ℕ) (a b : ℕ × ℕ) :
    markStep xs views T (markStep xs views T s a) b =
      markStep xs views T (markStep xs views T s b) a := by
  rcases s with ⟨L, n⟩
  by_cases hab : a.2 = b.2
  · -- both entries reference the same point
    by_cases hz : (L.getD a.2 ⟨0, 0, 0⟩).z < 0
    · have hzb : (L.getD b.2 ⟨0, 0, 0⟩).z < 0 := by
        rw [← hab]
        exact hz
      rw [markStep_skip xs views T (L, n) a hz,
        markStep_skip xs views T (L, n) b hzb,
        markStep_skip xs views T (L, n) a hz]
    · have hz' : ¬ (L.getD b.2 ⟨0, 0, 0⟩).z < 0 := by
        rw [← hab]
        exact hz
      by_cases hz0 : (L.getD a.2 ⟨0, 0, 0⟩).z = 0
      · -- third coordinate zero: flipping is the identity on the list
        have hz0' : (L.getD b.2 ⟨0, 0, 0⟩).z = 0 := by
          rw [← hab]
          exact hz0
        have hseta : L.set a.2 (flipZ (L.getD a.2 ⟨0, 0, 0⟩)) = L := by
          rw [flipZ_of_z_zero hz0]
          exact set_getD_self L a.2 ⟨0, 0, 0⟩
        have hsetb : L.set b.2 (flipZ (L.getD b.2 ⟨0, 0, 0⟩)) = L := by
          rw [flipZ_of_z_zero hz0']
          exact set_getD_self L b.2 ⟨0, 0, 0⟩
        by_cases ha : errSq xs views a.1 (L.getD a.2 ⟨0, 0, 0⟩) > T
        · have ea : ∀ m : ℕ, markStep xs views T (L, m) a = (L, m + 1) := by
            intro m
            rw [markStep_flip xs views T (L, m) a hz ha]
            dsimp only
            rw [hseta]
          by_cases hb : errSq xs views b.1 (L.getD b.2 ⟨0, 0, 0⟩) > T
          · have eb : ∀ m : ℕ, markStep xs views T (L, m) b = (L, m + 1) := by
              intro m
              rw [markStep_flip xs views T (L, m) b hz' hb]
              dsimp only
              rw [hsetb]
            rw [ea n, eb (n + 1), eb n, ea (n + 1)]
          · have eb : ∀ m : ℕ, markStep xs views T (L, m) b = (L, m) :=
              fun m => markStep_keep xs views T (L, m) b hz' hb
            rw [ea n, eb (n + 1), eb n, ea n]
        · have ea : ∀ m : ℕ, markStep xs views T (L, m) a = (L, m) :=
            fun m => markStep_keep xs views T (L, m) a hz ha
          by_cases hb : errSq xs views b.1 (L.getD b.2 ⟨0, 0, 0⟩) > T
          · have eb : ∀ m : ℕ, markStep xs views T (L, m) b = (L, m + 1) := by
              intro m
              rw [markStep_flip xs views T (L, m) b hz' hb]
              dsimp only
              rw [hsetb]
            rw [ea n, eb n, ea (n + 1)]
          · have eb : ∀ m : ℕ, markStep xs views T (L, m) b = (L, m) :=
              fun m => markStep_keep xs views T (L, m) b hz' hb
            rw [ea n, eb n, ea n]
      · -- third coordinate strictly positive: the first flip makes it
        -- negative, so the second entry skips
        have hlen : a.2 < L.length := by
          by_contra hle
          exact hz0 (by rw [getD_of_le (not_lt.1 hle)])
        have hzpos : 0 < (L.getD a.2 ⟨0, 0, 0⟩).z :=
          lt_of_le_of_ne (not_lt.1 hz) (Ne.symm hz0)
        by_cases ha : errSq xs views a.1 (L.getD a.2 ⟨0, 0, 0⟩) > T
        · have ea : markStep xs views T (L, n) a =
              (L.set a.2 (flipZ (L.getD a.2 ⟨0, 0, 0⟩)), n + 1) :=
            markStep_flip xs views T (L, n) a hz ha
          have hskb : ((L.set a.2 (flipZ (L.getD a.2 ⟨0, 0, 0⟩))).getD b.2
              ⟨0, 0, 0⟩).z < 0 := by
            rw [← hab, getD_set_lt hlen]
            exact neg_lt_zero.2 hzpos
          by_cases hb : errSq xs views b.1 (L.getD b.2 ⟨0, 0, 0⟩) > T
          · have eb : markStep xs views T (L, n) b =
                (L.set b.2 (flipZ (L.getD b.2 ⟨0, 0, 0⟩)), n + 1) :=
              markStep_flip xs views T (L, n) b hz' hb
            have hska : ((L.set b.2 (flipZ (L.getD b.2 ⟨0, 0, 0⟩))).getD a.2
                ⟨0, 0, 0⟩).z < 0 := by
              rw [← hab, getD_set_lt hlen]
              exact neg_lt_zero.2 hzpos
            rw [ea, markStep_skip xs views T
                (L.set a.2 (flipZ (L.getD a.2 ⟨0, 0, 0⟩)), n + 1) b hskb,
              eb, markStep_skip xs views T
                (L.set b.2 (flipZ (L.getD b.2 ⟨0, 0, 0⟩)), n + 1) a hska,
              hab]
          · rw [ea, markStep_skip xs views T
                (L.set a.2 (flipZ (L.getD a.2 ⟨0, 0, 0⟩)), n + 1) b hskb,
              markStep_keep xs views T (L, n) b hz' hb, ea]
        · have ka : markStep xs views T (L, n) a = (L, n) :=
            markStep_keep xs views T (L, n) a hz ha
          by_cases hb : errSq xs views b.1 (L.getD b.2 ⟨0, 0, 0⟩) > T
          · have eb : markStep xs views T (L, n) b =
                (L.set b.2 (flipZ (L.getD b.2 ⟨0, 0, 0⟩)), n + 1) :=
              markStep_flip xs views T (L, n) b hz' hb
            have hska : ((L.set b.2 (flipZ (L.getD b.2 ⟨0, 0, 0⟩))).getD a.2
                ⟨0, 0, 0⟩).z < 0 := by
              rw [← hab, getD_set_lt hlen]
              exact neg_lt_zero.2 hzpos
            rw [ka, eb, markStep_skip xs views T
              (L.set b.2 (flipZ (L.getD b.2 ⟨0, 0, 0⟩)), n + 1) a hska]
          · have kb : markStep xs views T (L, n) b = (L, n) :=
              markStep_keep xs views T (L, n) b hz' hb
            rw [ka, kb, ka]
  · -- different point indices: the two steps are independent
    have hne : a.2 ≠ b.2 := hab
    have hba : b.2 ≠ a.2 := fun h => hab h.symm
    have gb : ∀ v, (L.set a.2 v).getD b.2 ⟨0, 0, 0⟩ = L.getD b.2 ⟨0, 0, 0⟩ :=
      fun v => getD_set_of_ne hne v ⟨0, 0, 0⟩
    have ga : ∀ v, (L.set b.2 v).getD a.2 ⟨0, 0, 0⟩ = L.getD a.2 ⟨0, 0, 0⟩ :=
      fun v => getD_set_of_ne hba v ⟨0, 0, 0⟩
    by_cases hza : (L.getD a.2 ⟨0, 0, 0⟩).z < 0
    · rw [markStep_skip xs views T (L, n) a hza]
      by_cases hzb : (L.getD b.2 ⟨0, 0, 0⟩).z < 0
      · rw [markStep_skip xs views T (L, n) b hzb,
          markStep_skip xs views T (L, n) a hza]
      · by_cases hb : errSq xs views b.1 (L.getD b.2 ⟨0, 0, 0⟩) > T
        · have eb : markStep xs views T (L, n) b =
              (L.set b.2 (flipZ (L.getD b.2 ⟨0, 0, 0⟩)), n + 1) :=
            markStep_flip xs views T (L, n) b hzb hb
          rw [eb, markStep_skip xs views T
            (L.set b.2 (flipZ (L.getD b.2 ⟨0, 0, 0⟩)), n + 1) a
            (by dsimp only; rw [ga]; exact hza)]
        · rw [markStep_keep xs views T (L, n) b hzb hb,
            markStep_skip xs views T (L, n) a hza]
    · by_cases ha : errSq xs views a.1 (L.getD a.2 ⟨0, 0, 0⟩) > T
      · have ea : markStep xs views T (L, n) a =
            (L.set a.2 (flipZ (L.getD a.2 ⟨0, 0, 0⟩)), n + 1) :=
          markStep_flip xs views T (L, n) a hza ha
        by_cases hzb : (L.getD b.2 ⟨0, 0, 0⟩).z < 0
        · rw [ea, markStep_skip xs views T
              (L.set a.2 (flipZ (L.getD a.2 ⟨0, 0, 0⟩)), n + 1) b
              (by dsimp only; rw [gb]; exact hzb),
            markStep_skip xs views T (L, n) b hzb, ea]
        · by_cases hb : errSq xs views b.1 (L.getD b.2 ⟨0, 0, 0⟩) > T
          · have eb : markStep xs views T (L, n) b =
                (L.set b.2 (flipZ (L.getD b.2 ⟨0, 0, 0⟩)), n + 1) :=
              markStep_flip xs views T (L, n) b hzb hb
            have eab : markStep xs views T
                (L.set a.2 (flipZ (L.getD a.2 ⟨0, 0, 0⟩)), n + 1) b =
                ((L.set a.2 (flipZ (L.getD a.2 ⟨0, 0, 0⟩))).set b.2
                  (flipZ (L.getD b.2 ⟨0, 0, 0⟩)), n + 1 + 1) := by
              rw [markStep_flip xs views T
                (L.set a.2 (flipZ (L.getD a.2 ⟨0, 0, 0⟩)), n + 1) b
                (by dsimp only; rw [gb]; exact hzb)
                (by dsimp only; rw [gb]; exact hb)]
              dsimp only
              rw [gb]
            have eba : markStep xs views T
                (L.set b.2 (flipZ (L.getD b.2 ⟨0, 0, 0⟩)), n + 1) a =
                ((L.set b.2 (flipZ (L.getD b.2 ⟨0, 0, 0⟩))).set a.2
                  (flipZ (L.getD a.2 ⟨0, 0, 0⟩)), n + 1 + 1) := by
              rw [markStep_flip xs views T
                (L.set b.2 (flipZ (L.getD b.2 ⟨0, 0, 0⟩)), n + 1) a
                (by dsimp only; rw [ga]; exact hza)
                (by dsimp only; rw [ga]; exact ha)]
              dsimp only
              rw [ga]
            rw [ea, eab, eb, eba, List.set_comm _ _ _ hne]
          · rw [ea, markStep_keep xs views T
                (L.set a.2 (flipZ (L.getD a.2 ⟨0, 0, 0⟩)), n + 1) b
                (by dsimp only; rw [gb]; exact hzb)
                (by dsimp only; rw [gb]; exact hb),
              markStep_keep xs views T (L, n) b hzb hb, ea]
      · have ka : markStep xs views T (L, n) a = (L, n) :=
          markStep_keep xs views T (L, n) a hza ha
        by_cases hzb : (L.getD b.2 ⟨0, 0, 0⟩).z < 0
        · rw [ka, markStep_skip xs views T (L, n) b hzb, ka]
        · by_cases hb : errSq xs views b.1 (L.getD b.2 ⟨0, 0, 0⟩) > T
          · have eb : markStep xs views T (L, n) b =
                (L.set b.2 (flipZ (L.getD b.2 ⟨0, 0, 0⟩)), n + 1) :=
              markStep_flip xs views T (L, n) b hzb hb
            rw [ka, eb, markStep_keep xs views T
              (L.set b.2 (flipZ (L.getD b.2 ⟨0, 0, 0⟩)), n + 1) a
              (by dsimp only; rw [ga]; exact hza)
              (by dsimp only; rw [ga]; exact ha)]
          · rw [ka, markStep_keep xs views T (L, n) b hzb hb, ka]

theorem foldl_perm_of_comm {α β : Type} {f : β → α → β}
    (hc : ∀ s a b, f (f s a) b = f (f s b) a) {l1 l2 : List α}
    (h : l1.Perm l2) (s : β) : l1.foldl f s = l2.foldl f s := by
  induction h generalizing s with
  | nil => rfl
  | cons x h ih =>
      rw [List.foldl_cons, List.foldl_cons, ih]
  | swap x y l =>
      rw [List.foldl_cons, List.foldl_cons, List.foldl_cons, List.foldl_cons,
        hc]
  | trans h1 h2 ih1 ih2 =>
      rw [ih1, ih2]

/-- Claim C5: the result is independent of the enumeration order of the
visibility map: for any two enumeration orders (permutations of the entry
list) and points with nonzero third coordinates, `markNoisyPoints` returns
the same count and the same final points, and `addCostFunc11DOF` registers
the same multiset of residual blocks. -/
theorem markNoisyPoints_perm_invariant (Xs : List Point3)
    (xs : List (List Point2)) (views : List Vec11d) (T lw : ℝ)
    (l1 l2 : List (ℕ × ℕ)) (hperm : l1.Perm l2)
    (hnz : ∀ X ∈ Xs, X.z ≠ 0) :
    markNoisyPoints Xs xs views l1 T = markNoisyPoints Xs xs views l2 T ∧
    (addCostFunc11DOF xs l1 lw).Perm (addCostFunc11DOF xs l2 lw) := by
  refine ⟨?_, hperm.map _⟩
  unfold markNoisyPoints
  split
  · rfl
  · rw [foldl_perm_of_comm (markStep_comm xs views T) hperm]

/-- Concrete instance of `markNoisyPoints_perm_invariant` on a two-entry
visibility map enumerated in both orders. -/
theorem markNoisyPoints_perm_invariant_witness :
    markNoisyPoints [⟨0, 0, 1⟩, ⟨0, 0, 2⟩] [[⟨3, 4⟩, ⟨3, 4⟩]] [view0]
        [(0, 0), (1, 1)] 4 =
      markNoisyPoints [⟨0, 0, 1⟩, ⟨0, 0, 2⟩] [[⟨3, 4⟩, ⟨3, 4⟩]] [view0]
        [(1, 1), (0, 0)] 4 ∧
    (addCostFunc11DOF [[⟨3, 4⟩, ⟨3, 4⟩]] [(0, 0), (1, 1)] 4).Perm
      (addCostFunc11DOF [[⟨3, 4⟩, ⟨3, 4⟩]] [(1, 1), (0, 0)] 4) :=
  markNoisyPoints_perm_invariant [⟨0, 0, 1⟩, ⟨0, 0, 2⟩] [[⟨3, 4⟩, ⟨3, 4⟩]]
    [view0] 4 4 [(0, 0), (1, 1)] [(1, 1), (0, 0)]
    (List.Perm.swap (1, 1) (0, 0) [])
    (by
      intro X hX
      rcases List.mem_cons.1 hX with rfl | hX'
      · norm_num
      · rcases List.mem_cons.1 hX' with rfl | hX''
        · norm_num
        · exact absurd hX'' (List.not_mem_nil X))

end SFM
